import Mathlib

/-!
# Verification of the move-decision engine of PlayerClientAuto3.py

This file gives a shallow embedding of the core of the autonomous player
agent (the move-decision engine of PlayerClientAuto3.py): the MOVES table,
the grid/obstacle-map construction, the BFS path finder, the Manhattan
nearest-coin target selection, the fallback-coin pruning, and the decision
cycle performed by the game_state branch of on_message.  Theorems below
settle the frozen claims about this code.

Conventions of the embedding:
* Python tuples (row, col) of unbounded ints become `Pos := Int × Int`.
* The Python dict used for the board becomes an association list `Grid`
  whose lookup returns the most recently written binding, exactly as a
  dict does; `gridSet` is dict assignment.
* The Python `while queue:` loop of `bfs` is embedded with an explicit
  fuel parameter that strictly exceeds the number of loop iterations the
  source can perform (each iteration pops one queue entry and every entry
  except the initial one corresponds to a fresh eligible grid cell, so
  `grid.length + 2` iterations always suffice; this adequacy is proved as
  `bfsAux_isSome_of_lt` together with the fuel-irrelevance lemma
  `bfsAux_fuel_eq`).  The fuel-exhaustion value `none` is proved
  unreachable at the fuel `bfs` supplies.
* `list.remove(x)` in Python removes the first occurrence and raises
  `ValueError` when `x` is absent; it is embedded as `pyRemove`, returning
  `none` exactly when the source would raise.
* `random.choice(list(MOVES.keys()))` is embedded by passing the drawn
  move as an explicit oracle argument `rnd` to the decision cycle.
-/

/-- Board coordinates: Python `(row, col)` tuples of unbounded integers. -/
abbrev Pos := Int × Int

/-- The four symbolic directions, the keys of the `MOVES` dict. -/
inductive Move where
  | UP
  | DOWN
  | LEFT
  | RIGHT
deriving DecidableEq, Repr

open Move

/-- The `MOVES` constant of the source, in dict insertion order:
`{"UP": (-1,0), "DOWN": (1,0), "LEFT": (0,-1), "RIGHT": (0,1)}`.
Iteration over a Python dict follows insertion order, so this list order
is exactly the neighbour-expansion order of `bfs`. -/
def MOVES : List (Move × Pos) :=
  [(UP, (-1, 0)), (DOWN, (1, 0)), (LEFT, (0, -1)), (RIGHT, (0, 1))]

/-- The offset associated to each move (the value stored in `MOVES`). -/
def moveDelta : Move → Pos
  | UP => (-1, 0)
  | DOWN => (1, 0)
  | LEFT => (0, -1)
  | RIGHT => (0, 1)

/-- `next_pos = (current[0] + dx, current[1] + dy)` of the source. -/
def stepPos (p : Pos) (d : Pos) : Pos := (p.1 + d.1, p.2 + d.2)

/-- The board dict: an association list from positions to characters,
embedding the Python dict `grid`. -/
abbrev Grid := List (Pos × Char)

/-- Dict lookup: the most recently written binding wins (writes are
placed at the front by `gridSet`). `none` means the key is absent, i.e.
Python `p in grid` is false. -/
def gridGet : Grid → Pos → Option Char
  | [], _ => none
  | (q, c) :: rest, p => if p = q then some c else gridGet rest p

/-- Dict assignment `grid[p] = c`: extensionally, the new map sends `p`
to `c` and every other key to its previous value. -/
def gridSet (g : Grid) (p : Pos) (c : Char) : Grid := (p, c) :: g

/-- Concatenation of a list of lists (row lists of the board). -/
def concatLists : List (List Pos) → List Pos
  | [] => []
  | l :: ls => l ++ concatLists ls

/-- One row of board cells: `[(x,0), ..., (x,9)]`. -/
def rowCells (x : Int) : List Pos :=
  (List.range 10).map (fun (y : Nat) => (x, (y : Int)))

/-- All cells of the fixed 10×10 board, the keys of the dict
comprehension `{(x, y): '.' for x in range(10) for y in range(10)}`. -/
def boardList : List Pos :=
  concatLists ((List.range 10).map (fun (x : Nat) => rowCells (x : Int)))

/-- The freshly initialised board dict, every cell mapped to `'.'`. -/
def baseGrid : Grid := boardList.map (fun p => (p, '.'))

/-- `grid = {...all '.'...}; for wall in wall_positions: grid[wall] = 'W'`
(source lines 93–95). -/
def buildGrid (walls : List Pos) : Grid :=
  walls.foldl (fun g w => gridSet g w 'W') baseGrid

/-- The neighbour-eligibility test of `bfs`:
`next_pos in grid and grid[next_pos] != 'W'`. -/
def eligible (g : Grid) (p : Pos) : Bool :=
  match gridGet g p with
  | some c => if c = 'W' then false else true
  | none => false

/-- The inner `for move, (dx, dy) in MOVES.items():` loop of `bfs`
(source lines 72–76): for each remaining move, compute the neighbour,
and if it is an in-grid non-wall cell not yet visited, append it to the
pending queue items and mark it visited. -/
def expandMoves (g : Grid) (current : Pos) (path : List Move) :
    List (Move × Pos) → List (Pos × List Move) → List Pos →
      List (Pos × List Move) × List Pos
  | [], items, visited => (items, visited)
  | (m, d) :: ms, items, visited =>
      let np := stepPos current d
      if eligible g np = true ∧ np ∉ visited then
        expandMoves g current path ms (items ++ [(np, path ++ [m])]) (np :: visited)
      else
        expandMoves g current path ms items visited

/-- The `while queue:` loop of `bfs` (source lines 67–77), with fuel.
Each iteration pops the front entry, returns its path if it is the goal,
otherwise marks it visited and expands its neighbours in `MOVES` order.
`none` is the (provably unreachable at the supplied fuel) fuel-exhaustion
marker; `some []` is the `return []` after the loop. -/
def bfsAux (g : Grid) (goal : Pos) :
    Nat → List (Pos × List Move) → List Pos → Option (List Move)
  | 0, _, _ => none
  | _ + 1, [], _ => some []
  | fuel + 1, (current, path) :: rest, visited =>
      if current = goal then some path
      else
        bfsAux g goal fuel
          (rest ++ (expandMoves g current path MOVES [] (current :: visited)).1)
          (expandMoves g current path MOVES [] (current :: visited)).2

/-- `bfs(grid, start, goal)` of the source (lines 63–77): start from the
queue `[(start, [])]` and the empty visited set.  The fuel
`g.length + 2` strictly exceeds the number of iterations the source loop
can run (proved below), so the embedded loop is never cut short. -/
def bfs (g : Grid) (start goal : Pos) : List Move :=
  (bfsAux g goal (g.length + 2) [(start, [])] []).getD []

/-- `manhattan_distance(pos1, pos2)` of the source (lines 60–61). -/
def manhattan_distance (pos1 pos2 : Pos) : Nat :=
  (pos1.1 - pos2.1).natAbs + (pos1.2 - pos2.2).natAbs

/-- Python `min(x :: xs, key)`: scan left to right keeping the current
best, replacing it only on a strictly smaller key, hence returning the
first element attaining the minimum. -/
def pyMin (key : Pos → Nat) : Pos → List Pos → Pos
  | best, [] => best
  | best, x :: xs => if key x < key best then pyMin key x xs else pyMin key best xs

/-- Removal of the first occurrence of `x`, as Python `list.remove`. -/
def removeFirst : List Pos → Pos → List Pos
  | [], _ => []
  | y :: ys, x => if y = x then ys else y :: removeFirst ys x

/-- Python `xs.remove(x)`: removes the first occurrence of `x`, raising
`ValueError` (embedded as `none`) when `x` is absent. -/
def pyRemove (xs : List Pos) (x : Pos) : Option (List Pos) :=
  if x ∈ xs then some (removeFirst xs x) else none

/-- The module-level `fake_coin_positions` seed (source line 21). -/
def fake_coin_positions : List Pos := [(0, 0), (0, 9), (9, 0), (9, 9)]

/-- The decision cycle: the `game_state` branch of `on_message`
(source lines 88–130), given the decoded snapshot fields, the current
fallback-coin list and the oracle value `rnd` that `random.choice` would
draw.  Returns the published move together with the updated fallback
list, or `none` if the cycle would raise an exception. -/
def on_message_core (cur : Pos) (coin1 coin2 coin3 walls fake : List Pos)
    (rnd : Move) : Option (Move × List Pos) :=
  match coin1 ++ coin2 ++ coin3 with
  | c :: cs =>
      match bfs (buildGrid walls) cur (pyMin (manhattan_distance cur) c cs) with
      | m :: _ => some (m, fake)
      | [] => some (rnd, fake)
  | [] =>
      match fake with
      | f :: fs =>
          match (if manhattan_distance cur (pyMin (manhattan_distance cur) f fs) ≤ 2
                 then pyRemove fake (pyMin (manhattan_distance cur) f fs)
                 else some fake) with
          | none => none
          | some fake1 =>
              match bfs (buildGrid walls) cur (pyMin (manhattan_distance cur) f fs) with
              | m :: _ =>
                  if cur = pyMin (manhattan_distance cur) f fs then
                    match pyRemove fake1 (pyMin (manhattan_distance cur) f fs) with
                    | none => none
                    | some fake2 => some (m, fake2)
                  else some (m, fake1)
              | [] => some (rnd, fake1)
      | [] => some (rnd, fake)

/-- One decoded snapshot together with the random draw of its cycle. -/
structure CycleInput where
  cur : Pos
  coin1 : List Pos
  coin2 : List Pos
  coin3 : List Pos
  walls : List Pos
  rnd : Move

/-- Iterated decision cycles threading the fallback-coin list, the
process-lifetime behaviour of the module-level `fake_coin_positions`. -/
def runCycles : List Pos → List CycleInput → Option (List Pos)
  | fake, [] => some fake
  | fake, i :: is =>
      match on_message_core i.cur i.coin1 i.coin2 i.coin3 i.walls fake i.rnd with
      | some (_, fake1) => runCycles fake1 is
      | none => none

/-! ## Specification-side definitions -/

/-- Walking a move sequence is legal from `p`: every cell stepped onto is
an in-grid non-wall cell. -/
def validFrom (g : Grid) : Pos → List Move → Bool
  | _, [] => true
  | p, m :: ms =>
      let q := stepPos p (moveDelta m)
      eligible g q && validFrom g q ms

/-- The endpoint of a move sequence applied from `p`. -/
def applyMoves : Pos → List Move → Pos
  | p, [] => p
  | p, m :: ms => applyMoves (stepPos p (moveDelta m)) ms

/-- The successive cells visited (after each move) by a move sequence. -/
def trail : Pos → List Move → List Pos
  | _, [] => []
  | p, m :: ms =>
      let q := stepPos p (moveDelta m)
      q :: trail q ms

/-- `t` is reachable from `s`: some legal move sequence reaches it. -/
def Reach (g : Grid) (s t : Pos) : Prop :=
  ∃ ms, validFrom g s ms = true ∧ applyMoves s ms = t

/-- Membership in the fixed 10×10 board. -/
def onBoard (p : Pos) : Bool :=
  decide (0 ≤ p.1) && decide (p.1 < 10) && decide (0 ≤ p.2) && decide (p.2 < 10)

/-- The finite set of eligible cells of a grid (used for termination
bookkeeping of the BFS loop). -/
def eligFinset (g : Grid) : Finset Pos :=
  (g.map Prod.fst).toFinset.filter (fun p => eligible g p = true)

/-- Termination measure of the BFS loop: undiscovered eligible cells plus
pending queue entries; it strictly decreases at every iteration. -/
def muBfs (g : Grid) (queue : List (Pos × List Move)) (visited : List Pos) : Nat :=
  (eligFinset g \ visited.toFinset).card + queue.length

/-! ## Basic lemmas about the grid model -/

lemma gridGet_foldl_walls (walls : List Pos) (p : Pos) :
    ∀ acc : Grid,
      gridGet (walls.foldl (fun g w => gridSet g w 'W') acc) p =
        if p ∈ walls then some 'W' else gridGet acc p := by
  induction walls with
  | nil => intro acc; simp
  | cons w ws ih =>
      intro acc
      rw [List.foldl_cons, ih (gridSet acc w 'W')]
      by_cases h1 : p ∈ ws
      · simp [h1]
      · by_cases h2 : p = w
        · simp [h1, h2, gridSet, gridGet]
        · simp [h1, h2, gridSet, gridGet, List.mem_cons]

lemma gridGet_map_dot (l : List Pos) (p : Pos) :
    gridGet (l.map (fun q => (q, '.'))) p =
      if p ∈ l then some '.' else none := by
  induction l with
  | nil => simp [gridGet]
  | cons a t ih =>
      simp only [List.map_cons, gridGet, List.mem_cons]
      by_cases h : p = a <;> simp [h, ih]

lemma onBoard_iff (p : Pos) :
    onBoard p = true ↔ 0 ≤ p.1 ∧ p.1 < 10 ∧ 0 ≤ p.2 ∧ p.2 < 10 := by
  rw [onBoard]
  simp only [Bool.and_eq_true, decide_eq_true_eq]
  tauto

lemma mem_rowCells {x : Int} {p : Pos} :
    p ∈ rowCells x ↔ ∃ y : Nat, y < 10 ∧ p = (x, (y : Int)) := by
  rw [rowCells]
  constructor
  · intro h
    rcases List.mem_map.mp h with ⟨y, hy, hEq⟩
    exact ⟨y, List.mem_range.mp hy, hEq.symm⟩
  · rintro ⟨y, hy, rfl⟩
    exact List.mem_map.mpr ⟨y, List.mem_range.mpr hy, rfl⟩

lemma mem_boardList (p : Pos) : p ∈ boardList ↔ onBoard p = true := by
  have hconcat : ∀ (xs : List Nat),
      p ∈ concatLists (xs.map (fun (x : Nat) => rowCells (x : Int))) ↔
        ∃ x ∈ xs, p ∈ rowCells (x : Int) := by
    intro xs
    induction xs with
    | nil => simp [concatLists]
    | cons a t ih =>
        rw [List.map_cons, concatLists, List.mem_append, ih]
        constructor
        · rintro (h | ⟨x, hx, hpx⟩)
          · exact ⟨a, List.mem_cons_self a t, h⟩
          · exact ⟨x, List.mem_cons_of_mem a hx, hpx⟩
        · rintro ⟨x, hx, hpx⟩
          rcases List.mem_cons.mp hx with rfl | hx
          · exact Or.inl hpx
          · exact Or.inr ⟨x, hx, hpx⟩
  rw [boardList, hconcat, onBoard_iff]
  constructor
  · rintro ⟨x, hx, hp⟩
    rcases mem_rowCells.mp hp with ⟨y, hy, rfl⟩
    have hx10 : x < 10 := List.mem_range.mp hx
    have e1 : (((x : Int), (y : Int)) : Pos).1 = (x : Int) := rfl
    have e2 : (((x : Int), (y : Int)) : Pos).2 = (y : Int) := rfl
    rw [e1, e2]
    omega
  · rintro ⟨h1, h2, h3, h4⟩
    refine ⟨p.1.toNat, List.mem_range.mpr (by omega),
      mem_rowCells.mpr ⟨p.2.toNat, by omega, ?_⟩⟩
    rw [Prod.ext_iff]
    constructor
    · show p.1 = ((p.1.toNat : Int))
      omega
    · show p.2 = ((p.2.toNat : Int))
      omega

lemma gridGet_buildGrid (walls : List Pos) (p : Pos) :
    gridGet (buildGrid walls) p =
      if p ∈ walls then some 'W'
      else if onBoard p = true then some '.' else none := by
  rw [buildGrid, gridGet_foldl_walls, baseGrid, gridGet_map_dot]
  by_cases h1 : p ∈ walls
  · simp [h1]
  · by_cases h2 : onBoard p = true
    · simp [h1, h2, (mem_boardList p).mpr h2]
    · have : p ∉ boardList := fun hc => h2 ((mem_boardList p).mp hc)
      simp [h1, h2, this]

lemma eligible_buildGrid (walls : List Pos) (p : Pos) :
    eligible (buildGrid walls) p = true ↔ (onBoard p = true ∧ p ∉ walls) := by
  rw [eligible, gridGet_buildGrid]
  by_cases h1 : p ∈ walls
  · simp [h1]
  · by_cases h2 : onBoard p = true <;> simp [h1, h2]

lemma gridGet_isSome_mem {g : Grid} {p : Pos} (h : (gridGet g p).isSome = true) :
    p ∈ g.map Prod.fst := by
  induction g with
  | nil => simp [gridGet] at h
  | cons e rest ih =>
      obtain ⟨q, c⟩ := e
      rw [gridGet] at h
      by_cases hq : p = q
      · simp [hq]
      · simp only [if_neg hq] at h
        simp [ih h]

lemma eligible_mem_keys {g : Grid} {p : Pos} (h : eligible g p = true) :
    p ∈ g.map Prod.fst := by
  apply gridGet_isSome_mem
  rw [eligible] at h
  cases hg : gridGet g p with
  | none => rw [hg] at h; simp at h
  | some c => simp [hg]

lemma mem_eligFinset {g : Grid} {p : Pos} :
    p ∈ eligFinset g ↔ eligible g p = true := by
  rw [eligFinset, Finset.mem_filter, List.mem_toFinset]
  constructor
  · rintro ⟨_, h⟩; exact h
  · intro h; exact ⟨eligible_mem_keys h, h⟩

lemma eligFinset_card_le (g : Grid) : (eligFinset g).card ≤ g.length := by
  calc (eligFinset g).card ≤ (g.map Prod.fst).toFinset.card :=
        Finset.card_le_card (Finset.filter_subset _ _)
    _ ≤ (g.map Prod.fst).length := (g.map Prod.fst).toFinset_card_le
    _ = g.length := List.length_map _ _

/-! ## Basic lemmas about moves and paths -/

lemma mem_MOVES_delta {m : Move} {d : Pos} (h : (m, d) ∈ MOVES) :
    d = moveDelta m := by
  simp only [MOVES, List.mem_cons, List.mem_singleton, Prod.mk.injEq,
    List.not_mem_nil, or_false] at h
  rcases h with ⟨rfl, rfl⟩ | ⟨rfl, rfl⟩ | ⟨rfl, rfl⟩ | ⟨rfl, rfl⟩ <;> rfl

lemma moveDelta_mem_MOVES (m : Move) : (m, moveDelta m) ∈ MOVES := by
  cases m <;> simp [MOVES, moveDelta]

lemma stepPos_moveDelta_ne (p : Pos) (m : Move) :
    stepPos p (moveDelta m) ≠ p := by
  intro h
  have h1 := congrArg Prod.fst h
  have h2 := congrArg Prod.snd h
  cases m <;> simp only [stepPos, moveDelta] at h1 h2 <;> omega

lemma validFrom_append (g : Grid) (s : Pos) (xs ys : List Move) :
    validFrom g s (xs ++ ys) =
      (validFrom g s xs && validFrom g (applyMoves s xs) ys) := by
  induction xs generalizing s with
  | nil => simp [validFrom, applyMoves]
  | cons m t ih =>
      simp only [List.cons_append, validFrom, applyMoves, List.append_eq]
      rw [ih, Bool.and_assoc]

lemma applyMoves_append (s : Pos) (xs ys : List Move) :
    applyMoves s (xs ++ ys) = applyMoves (applyMoves s xs) ys := by
  induction xs generalizing s with
  | nil => simp [applyMoves]
  | cons m t ih =>
      simp only [List.cons_append, applyMoves, List.append_eq]
      rw [ih]

lemma validFrom_concat (g : Grid) (s : Pos) (xs : List Move) (m : Move) :
    validFrom g s (xs ++ [m]) = true ↔
      validFrom g s xs = true ∧
        eligible g (stepPos (applyMoves s xs) (moveDelta m)) = true := by
  rw [validFrom_append]
  simp [validFrom]

lemma applyMoves_concat (s : Pos) (xs : List Move) (m : Move) :
    applyMoves s (xs ++ [m]) = stepPos (applyMoves s xs) (moveDelta m) := by
  rw [applyMoves_append]
  simp [applyMoves]

lemma list_eq_nil_or_concat {α : Type} (l : List α) :
    l = [] ∨ ∃ xs x, l = xs ++ [x] := by
  induction l with
  | nil => exact Or.inl rfl
  | cons a t ih =>
      right
      rcases ih with rfl | ⟨xs, x, rfl⟩
      · exact ⟨[], a, rfl⟩
      · exact ⟨a :: xs, x, rfl⟩

lemma trail_eligible {g : Grid} :
    ∀ (ms : List Move) (s : Pos), validFrom g s ms = true →
      ∀ p ∈ trail s ms, eligible g p = true := by
  intro ms
  induction ms with
  | nil => intro s _ p hp; simp [trail] at hp
  | cons m t ih =>
      intro s hv p hp
      rw [validFrom, Bool.and_eq_true] at hv
      rw [trail] at hp
      rcases List.mem_cons.mp hp with rfl | hp
      · exact hv.1
      · exact ih _ hv.2 p hp

/-! ## Lemmas about the neighbour-expansion loop -/

lemma expandMoves_spec (g : Grid) (c : Pos) (pth : List Move) :
    ∀ (ml : List (Move × Pos)) (items : List (Pos × List Move))
      (visited : List Pos), ∃ new,
      (expandMoves g c pth ml items visited).1 = items ++ new ∧
      (expandMoves g c pth ml items visited).2 =
        (new.map Prod.fst).reverse ++ visited ∧
      ∀ e ∈ new,
        (∃ m d, (m, d) ∈ ml ∧ e.1 = stepPos c d ∧ e.2 = pth ++ [m]) ∧
        eligible g e.1 = true ∧ e.1 ∉ visited := by
  intro ml
  induction ml with
  | nil =>
      intro items visited
      exact ⟨[], by simp [expandMoves], by simp [expandMoves], by simp⟩
  | cons md ms ih =>
      obtain ⟨m, d⟩ := md
      intro items visited
      rw [expandMoves]
      by_cases h : eligible g (stepPos c d) = true ∧ stepPos c d ∉ visited
      · rw [if_pos h]
        obtain ⟨new, h1, h2, h3⟩ :=
          ih (items ++ [(stepPos c d, pth ++ [m])]) (stepPos c d :: visited)
        refine ⟨(stepPos c d, pth ++ [m]) :: new, ?_, ?_, ?_⟩
        · rw [h1, List.append_assoc]
          rfl
        · rw [h2]
          simp [List.append_assoc]
        · intro e he
          rcases List.mem_cons.mp he with rfl | he
          · exact ⟨⟨m, d, List.mem_cons_self _ _, rfl, rfl⟩, h.1, h.2⟩
          · obtain ⟨⟨m', d', hmd, he1, he2⟩, hel, hnv⟩ := h3 e he
            refine ⟨⟨m', d', List.mem_cons_of_mem _ hmd, he1, he2⟩, hel, ?_⟩
            intro hc
            exact hnv (List.mem_cons_of_mem _ hc)
      · rw [if_neg h]
        obtain ⟨new, h1, h2, h3⟩ := ih items visited
        refine ⟨new, h1, h2, ?_⟩
        intro e he
        obtain ⟨⟨m', d', hmd, he1, he2⟩, hel, hnv⟩ := h3 e he
        exact ⟨⟨m', d', List.mem_cons_of_mem _ hmd, he1, he2⟩, hel, hnv⟩

lemma expandMoves_card (g : Grid) (c : Pos) (pth : List Move) :
    ∀ (ml : List (Move × Pos)) (items : List (Pos × List Move))
      (visited : List Pos),
      (eligFinset g \ (expandMoves g c pth ml items visited).2.toFinset).card
          + (expandMoves g c pth ml items visited).1.length
        = (eligFinset g \ visited.toFinset).card + items.length := by
  intro ml
  induction ml with
  | nil => intro items visited; simp [expandMoves]
  | cons md ms ih =>
      obtain ⟨m, d⟩ := md
      intro items visited
      rw [expandMoves]
      by_cases h : eligible g (stepPos c d) = true ∧ stepPos c d ∉ visited
      · rw [if_pos h]
        rw [ih (items ++ [(stepPos c d, pth ++ [m])]) (stepPos c d :: visited)]
        have hmem : stepPos c d ∈ eligFinset g \ visited.toFinset := by
          rw [Finset.mem_sdiff, mem_eligFinset, List.mem_toFinset]
          exact ⟨h.1, h.2⟩
        have hins : (stepPos c d :: visited).toFinset
            = insert (stepPos c d) visited.toFinset := by
          simp
        have hsd : eligFinset g \ insert (stepPos c d) visited.toFinset
            = (eligFinset g \ visited.toFinset).erase (stepPos c d) := by
          ext q
          simp only [Finset.mem_sdiff, Finset.mem_insert, Finset.mem_erase]
          tauto
        rw [hins, hsd, Finset.card_erase_of_mem hmem, List.length_append]
        have hpos : 0 < (eligFinset g \ visited.toFinset).card :=
          Finset.card_pos.mpr ⟨stepPos c d, hmem⟩
        simp only [List.length_singleton]
        omega
      · rw [if_neg h]
        exact ih items visited

lemma expandMoves_coverage (g : Grid) (c : Pos) (pth : List Move) :
    ∀ (ml : List (Move × Pos)) (items : List (Pos × List Move))
      (visited : List Pos) (m : Move) (d : Pos),
      (m, d) ∈ ml → eligible g (stepPos c d) = true →
        stepPos c d ∈ (expandMoves g c pth ml items visited).2 := by
  intro ml
  induction ml with
  | nil => intro items visited m d hmd; simp at hmd
  | cons md ms ih =>
      obtain ⟨m0, d0⟩ := md
      intro items visited m d hmd hel
      rw [expandMoves]
      rcases List.mem_cons.mp hmd with heq | hmd
      · injection heq with h1 h2
        subst h1
        subst h2
        by_cases h : eligible g (stepPos c d) = true ∧ stepPos c d ∉ visited
        · rw [if_pos h]
          obtain ⟨new, _, h2, _⟩ :=
            expandMoves_spec g c pth ms (items ++ [(stepPos c d, pth ++ [m])])
              (stepPos c d :: visited)
          rw [h2]
          exact List.mem_append.mpr (Or.inr (List.mem_cons_self _ _))
        · rw [if_neg h]
          push_neg at h
          have hv : stepPos c d ∈ visited := h hel
          obtain ⟨new, _, h2, _⟩ := expandMoves_spec g c pth ms items visited
          rw [h2]
          exact List.mem_append.mpr (Or.inr hv)
      · by_cases h : eligible g (stepPos c d0) = true ∧ stepPos c d0 ∉ visited
        · rw [if_pos h]
          apply ih _ _ m d hmd hel
        · rw [if_neg h]
          apply ih _ _ m d hmd hel

/-! ## Termination and adequacy of the embedded BFS loop -/

lemma muBfs_step (g : Grid) (c : Pos) (pth : List Move)
    (rest : List (Pos × List Move)) (visited : List Pos) :
    muBfs g (rest ++ (expandMoves g c pth MOVES [] (c :: visited)).1)
        (expandMoves g c pth MOVES [] (c :: visited)).2 + 1
      ≤ muBfs g ((c, pth) :: rest) visited := by
  have hcard := expandMoves_card g c pth MOVES [] (c :: visited)
  have hsub : (eligFinset g \ (c :: visited).toFinset).card
      ≤ (eligFinset g \ visited.toFinset).card := by
    apply Finset.card_le_card
    apply Finset.sdiff_subset_sdiff (le_refl _)
    intro q hq
    simp only [List.mem_toFinset] at hq ⊢
    exact List.mem_cons_of_mem _ hq
  simp only [muBfs, List.length_append, List.length_cons,
    List.length_nil] at hcard ⊢
  omega

lemma bfsAux_isSome_of_lt (g : Grid) (goal : Pos) :
    ∀ (fuel : Nat) (queue : List (Pos × List Move)) (visited : List Pos),
      muBfs g queue visited < fuel →
      (bfsAux g goal fuel queue visited).isSome = true := by
  intro fuel
  induction fuel with
  | zero => intro queue visited h; omega
  | succ n ih =>
      intro queue visited h
      match queue with
      | [] => rw [bfsAux]; rfl
      | (c, pth) :: rest =>
          rw [bfsAux]
          by_cases hg : c = goal
          · rw [if_pos hg]; rfl
          · rw [if_neg hg]
            apply ih
            have := muBfs_step g c pth rest visited
            simp only [muBfs, List.length_cons] at h this ⊢
            omega

lemma bfsAux_fuel_eq (g : Grid) (goal : Pos) :
    ∀ (fuel1 fuel2 : Nat) (queue : List (Pos × List Move))
      (visited : List Pos),
      muBfs g queue visited < fuel1 → muBfs g queue visited < fuel2 →
      bfsAux g goal fuel1 queue visited = bfsAux g goal fuel2 queue visited := by
  intro fuel1
  induction fuel1 with
  | zero => intro fuel2 queue visited h1 h2; omega
  | succ n ih =>
      intro fuel2 queue visited h1 h2
      match fuel2 with
      | 0 => omega
      | n2 + 1 =>
          match queue with
          | [] => rw [bfsAux, bfsAux]
          | (c, pth) :: rest =>
              rw [bfsAux, bfsAux]
              by_cases hg : c = goal
              · rw [if_pos hg, if_pos hg]
              · rw [if_neg hg, if_neg hg]
                apply ih
                · have := muBfs_step g c pth rest visited
                  simp only [muBfs, List.length_cons] at h1 this ⊢
                  omega
                · have := muBfs_step g c pth rest visited
                  simp only [muBfs, List.length_cons] at h2 this ⊢
                  omega

lemma expandMoves_congr {g1 g2 : Grid} (helig : ∀ p, eligible g1 p = eligible g2 p)
    (c : Pos) (pth : List Move) :
    ∀ (ml : List (Move × Pos)) (items : List (Pos × List Move))
      (visited : List Pos),
      expandMoves g1 c pth ml items visited = expandMoves g2 c pth ml items visited := by
  intro ml
  induction ml with
  | nil => intro items visited; rw [expandMoves, expandMoves]
  | cons md ms ih =>
      obtain ⟨m, d⟩ := md
      intro items visited
      rw [expandMoves, expandMoves, helig (stepPos c d)]
      by_cases h : eligible g2 (stepPos c d) = true ∧ stepPos c d ∉ visited
      · rw [if_pos h, if_pos h, ih]
      · rw [if_neg h, if_neg h, ih]

lemma bfsAux_congr {g1 g2 : Grid} (goal : Pos)
    (helig : ∀ p, eligible g1 p = eligible g2 p) :
    ∀ (fuel : Nat) (queue : List (Pos × List Move)) (visited : List Pos),
      bfsAux g1 goal fuel queue visited = bfsAux g2 goal fuel queue visited := by
  intro fuel
  induction fuel with
  | zero => intro queue visited; rw [bfsAux, bfsAux]
  | succ n ih =>
      intro queue visited
      match queue with
      | [] => rw [bfsAux, bfsAux]
      | (c, pth) :: rest =>
          rw [bfsAux, bfsAux]
          by_cases hg : c = goal
          · rw [if_pos hg, if_pos hg]
          · rw [if_neg hg, if_neg hg]
            rw [expandMoves_congr helig c pth MOVES [] (c :: visited), ih]

lemma expandMoves_entries_ok (g : Grid) (start c : Pos) (pth : List Move)
    (visited : List Pos)
    (hva : validFrom g start pth = true) (hap : applyMoves start pth = c) :
    ∀ e ∈ (expandMoves g c pth MOVES [] visited).1,
      validFrom g start e.2 = true ∧ applyMoves start e.2 = e.1 := by
  obtain ⟨new, h1, _, h3⟩ := expandMoves_spec g c pth MOVES [] visited
  intro e he
  rw [h1, List.nil_append] at he
  obtain ⟨⟨m, d, hmd, he1, he2⟩, hel, _⟩ := h3 e he
  have hd := mem_MOVES_delta hmd
  subst hd
  constructor
  · rw [he2, validFrom_concat, hap]
    exact ⟨hva, he1 ▸ hel⟩
  · rw [he2, applyMoves_concat, hap, ← he1]

lemma bfsAux_sound (g : Grid) (start goal : Pos) :
    ∀ (fuel : Nat) (queue : List (Pos × List Move)) (visited : List Pos),
      (∀ e ∈ queue, validFrom g start e.2 = true ∧ applyMoves start e.2 = e.1) →
      ∀ r, bfsAux g goal fuel queue visited = some r →
        r = [] ∨ (validFrom g start r = true ∧ applyMoves start r = goal) := by
  intro fuel
  induction fuel with
  | zero => intro queue visited _ r hr; rw [bfsAux] at hr; cases hr
  | succ n ih =>
      intro queue visited hok r hr
      match queue with
      | [] =>
          rw [bfsAux] at hr
          injection hr with hr
          exact Or.inl hr.symm
      | (c, pth) :: rest =>
          rw [bfsAux] at hr
          by_cases hg : c = goal
          · rw [if_pos hg] at hr
            injection hr with hr
            subst hr
            obtain ⟨h1, h2⟩ := hok (c, pth) (List.mem_cons_self _ _)
            exact Or.inr ⟨h1, hg ▸ h2⟩
          · rw [if_neg hg] at hr
            apply ih _ _ _ r hr
            intro e he
            rcases List.mem_append.mp he with he | he
            · exact hok e (List.mem_cons_of_mem _ he)
            · obtain ⟨h1, h2⟩ := hok (c, pth) (List.mem_cons_self _ _)
              exact expandMoves_entries_ok g start c pth (c :: visited) h1 h2 e he

/-! ## The BFS loop invariant and the main correctness lemma -/

/-- The steady-state invariant of the BFS loop, relating the pending
queue (split into a front block of entries of path length `d` and a back
block of length `d + 1`) and the visited list to the search graph. -/
structure BfsInv (g : Grid) (start goal : Pos)
    (queue : List (Pos × List Move)) (visited : List Pos)
    (d : Nat) (q1 q2 : List (Pos × List Move)) : Prop where
  split : queue = q1 ++ q2
  q1nil : q1 = [] → q2 = []
  len1 : ∀ e ∈ q1, e.2.length = d
  len2 : ∀ e ∈ q2, e.2.length = d + 1
  entryOk : ∀ e ∈ queue,
    validFrom g start e.2 = true ∧ applyMoves start e.2 = e.1
  entryMin : ∀ e ∈ queue, ∀ ms, validFrom g start ms = true →
    applyMoves start ms = e.1 → e.2.length ≤ ms.length
  covered : ∀ (p : Pos) (ms : List Move), validFrom g start ms = true →
    applyMoves start ms = p → ms.length ≤ d → p ∈ visited
  qsub : ∀ e ∈ queue, e.1 ∈ visited
  closure : ∀ u ∈ visited, (∀ e ∈ queue, e.1 ≠ u) →
    ∀ (m : Move), eligible g (stepPos u (moveDelta m)) = true →
      stepPos u (moveDelta m) ∈ visited
  goalq : goal ∈ visited → ∃ e ∈ queue, e.1 = goal
  startv : start ∈ visited

lemma visited_closed_reach (g : Grid) (visited : List Pos)
    (hcl : ∀ u ∈ visited, ∀ (m : Move),
      eligible g (stepPos u (moveDelta m)) = true →
        stepPos u (moveDelta m) ∈ visited) :
    ∀ (ms : List Move) (s : Pos), s ∈ visited → validFrom g s ms = true →
      applyMoves s ms ∈ visited := by
  intro ms
  induction ms with
  | nil => intro s hs _; exact hs
  | cons m t ihm =>
      intro s hs hv
      rw [validFrom, Bool.and_eq_true] at hv
      exact ihm _ (hcl s hs m hv.1) hv.2

lemma bfs_main (g : Grid) (start goal : Pos) (hreach : Reach g start goal) :
    ∀ (fuel : Nat) (queue : List (Pos × List Move)) (visited : List Pos)
      (d : Nat) (q1 q2 : List (Pos × List Move)),
      BfsInv g start goal queue visited d q1 q2 →
      muBfs g queue visited < fuel →
      ∃ r, bfsAux g goal fuel queue visited = some r ∧
        validFrom g start r = true ∧ applyMoves start r = goal ∧
        ∀ ms, validFrom g start ms = true → applyMoves start ms = goal →
          r.length ≤ ms.length := by
  intro fuel
  induction fuel with
  | zero =>
      intro queue visited d q1 q2 _ hmu
      exact absurd hmu (Nat.not_lt_zero _)
  | succ n ih =>
      intro queue visited d q1 q2 hinv hmu
      obtain ⟨hsplit, hq1nil, hlen1, hlen2, hok, hmin, hcov, hqsub, hclos,
        hgoalq, hstartv⟩ := hinv
      subst hsplit
      cases q1 with
      | nil =>
          -- queue exhausted: contradicts reachability of the goal
          exfalso
          have hq2 : q2 = [] := hq1nil rfl
          subst hq2
          obtain ⟨ms, hval, happ⟩ := hreach
          have hgv : goal ∈ visited := by
            rw [← happ]
            refine visited_closed_reach g visited ?_ ms start hstartv hval
            intro u hu m hel
            refine hclos u hu ?_ m hel
            intro e he
            simp at he
          obtain ⟨e, he, _⟩ := hgoalq hgv
          simp at he
      | cons e0 q1t =>
          obtain ⟨c, pth⟩ := e0
          rw [List.cons_append, bfsAux]
          by_cases hg : c = goal
          · rw [if_pos hg]
            have hmemq : ((c, pth) : Pos × List Move) ∈ ((c, pth) :: q1t) ++ q2 :=
              List.mem_append.mpr (Or.inl (List.mem_cons_self _ _))
            obtain ⟨h1, h2⟩ := hok (c, pth) hmemq
            refine ⟨pth, rfl, h1, hg ▸ h2, ?_⟩
            intro ms hv ha
            exact hmin (c, pth) hmemq ms hv (by rw [ha, hg])
          · rw [if_neg hg]
            -- shared notation and facts about the expansion
            obtain ⟨new, hE1, hE2, hnew⟩ :=
              expandMoves_spec g c pth MOVES [] (c :: visited)
            rw [List.nil_append] at hE1
            have hmemq : ((c, pth) : Pos × List Move) ∈ ((c, pth) :: q1t) ++ q2 :=
              List.mem_append.mpr (Or.inl (List.mem_cons_self _ _))
            obtain ⟨hcva, hcap⟩ := hok (c, pth) hmemq
            have hlenpth : pth.length = d :=
              hlen1 (c, pth) (List.mem_cons_self _ _)
            have hVmem : ∀ x,
                x ∈ (expandMoves g c pth MOVES [] (c :: visited)).2 ↔
                  ((∃ e ∈ new, e.1 = x) ∨ x = c ∨ x ∈ visited) := by
              intro x
              rw [hE2]
              simp only [List.mem_append, List.mem_reverse, List.mem_map,
                List.mem_cons]
            have hQmem : ∀ e : Pos × List Move,
                e ∈ (q1t ++ q2) ++ (expandMoves g c pth MOVES [] (c :: visited)).1 ↔
                  (e ∈ q1t ∨ e ∈ q2 ∨ e ∈ new) := by
              intro e
              rw [hE1]
              simp only [List.mem_append]
              tauto
            have hOldmem : ∀ e : Pos × List Move,
                e ∈ ((c, pth) :: q1t) ++ q2 ↔
                  (e = (c, pth) ∨ e ∈ q1t ∨ e ∈ q2) := by
              intro e
              simp only [List.mem_append, List.mem_cons]
              tauto
            -- facts about newly pushed entries
            have hnew_ok : ∀ e ∈ new,
                validFrom g start e.2 = true ∧ applyMoves start e.2 = e.1 := by
              intro e he
              exact expandMoves_entries_ok g start c pth (c :: visited)
                hcva hcap e (by rw [hE1]; exact he)
            have hnew_len : ∀ e ∈ new, e.2.length = d + 1 := by
              intro e he
              obtain ⟨⟨m, dd, _, _, he2⟩, _, _⟩ := hnew e he
              rw [he2, List.length_append, hlenpth]
              rfl
            have hnew_min : ∀ e ∈ new, ∀ ms, validFrom g start ms = true →
                applyMoves start ms = e.1 → e.2.length ≤ ms.length := by
              intro e he ms hv ha
              obtain ⟨_, _, hnv⟩ := hnew e he
              rw [hnew_len e he]
              by_contra hlt
              push_neg at hlt
              have hms : ms.length ≤ d := by omega
              have : e.1 ∈ visited := hcov e.1 ms hv ha hms
              exact hnv (List.mem_cons_of_mem _ this)
            -- invariant fields of the new state that do not depend on the split
            have hok' : ∀ e ∈ (q1t ++ q2) ++
                (expandMoves g c pth MOVES [] (c :: visited)).1,
                validFrom g start e.2 = true ∧ applyMoves start e.2 = e.1 := by
              intro e he
              rcases (hQmem e).mp he with h | h | h
              · exact hok e ((hOldmem e).mpr (Or.inr (Or.inl h)))
              · exact hok e ((hOldmem e).mpr (Or.inr (Or.inr h)))
              · exact hnew_ok e h
            have hmin' : ∀ e ∈ (q1t ++ q2) ++
                (expandMoves g c pth MOVES [] (c :: visited)).1,
                ∀ ms, validFrom g start ms = true →
                  applyMoves start ms = e.1 → e.2.length ≤ ms.length := by
              intro e he
              rcases (hQmem e).mp he with h | h | h
              · exact hmin e ((hOldmem e).mpr (Or.inr (Or.inl h)))
              · exact hmin e ((hOldmem e).mpr (Or.inr (Or.inr h)))
              · exact hnew_min e h
            have hqsub' : ∀ e ∈ (q1t ++ q2) ++
                (expandMoves g c pth MOVES [] (c :: visited)).1,
                e.1 ∈ (expandMoves g c pth MOVES [] (c :: visited)).2 := by
              intro e he
              rcases (hQmem e).mp he with h | h | h
              · exact (hVmem e.1).mpr (Or.inr (Or.inr
                  (hqsub e ((hOldmem e).mpr (Or.inr (Or.inl h))))))
              · exact (hVmem e.1).mpr (Or.inr (Or.inr
                  (hqsub e ((hOldmem e).mpr (Or.inr (Or.inr h))))))
              · exact (hVmem e.1).mpr (Or.inl ⟨e, h, rfl⟩)
            have hstartv' : start ∈ (expandMoves g c pth MOVES [] (c :: visited)).2 :=
              (hVmem start).mpr (Or.inr (Or.inr hstartv))
            have hclos' : ∀ u ∈ (expandMoves g c pth MOVES [] (c :: visited)).2,
                (∀ e ∈ (q1t ++ q2) ++
                  (expandMoves g c pth MOVES [] (c :: visited)).1, e.1 ≠ u) →
                ∀ (m : Move), eligible g (stepPos u (moveDelta m)) = true →
                  stepPos u (moveDelta m) ∈
                    (expandMoves g c pth MOVES [] (c :: visited)).2 := by
              intro u hu hnq m hel
              by_cases huc : u = c
              · subst huc
                exact expandMoves_coverage g u pth MOVES [] (u :: visited)
                  m (moveDelta m) (moveDelta_mem_MOVES m) hel
              · rcases (hVmem u).mp hu with ⟨e, he, he1⟩ | h | h
                · exact absurd he1 (hnq e ((hQmem e).mpr (Or.inr (Or.inr he))))
                · exact absurd h huc
                · have hin : stepPos u (moveDelta m) ∈ visited := by
                    refine hclos u h ?_ m hel
                    intro e he
                    rcases (hOldmem e).mp he with rfl | h' | h'
                    · exact fun hc => huc hc.symm
                    · exact hnq e ((hQmem e).mpr (Or.inl h'))
                    · exact hnq e ((hQmem e).mpr (Or.inr (Or.inl h')))
                  exact (hVmem _).mpr (Or.inr (Or.inr hin))
            have hgoalq' : goal ∈ (expandMoves g c pth MOVES [] (c :: visited)).2 →
                ∃ e ∈ (q1t ++ q2) ++
                  (expandMoves g c pth MOVES [] (c :: visited)).1, e.1 = goal := by
              intro hgl
              rcases (hVmem goal).mp hgl with ⟨e, he, he1⟩ | h | h
              · exact ⟨e, (hQmem e).mpr (Or.inr (Or.inr he)), he1⟩
              · exact absurd h.symm hg
              · obtain ⟨e, he, he1⟩ := hgoalq h
                rcases (hOldmem e).mp he with rfl | h' | h'
                · exact absurd he1 hg
                · exact ⟨e, (hQmem e).mpr (Or.inl h'), he1⟩
                · exact ⟨e, (hQmem e).mpr (Or.inr (Or.inl h')), he1⟩
            have hcovd : ∀ (p : Pos) (ms : List Move),
                validFrom g start ms = true → applyMoves start ms = p →
                ms.length ≤ d →
                  p ∈ (expandMoves g c pth MOVES [] (c :: visited)).2 := by
              intro p ms hv ha hl
              exact (hVmem p).mpr (Or.inr (Or.inr (hcov p ms hv ha hl)))
            have hmu' : muBfs g ((q1t ++ q2) ++
                (expandMoves g c pth MOVES [] (c :: visited)).1)
                (expandMoves g c pth MOVES [] (c :: visited)).2 < n := by
              have hstep := muBfs_step g c pth (q1t ++ q2) visited
              have hmu2 : muBfs g ((c, pth) :: (q1t ++ q2)) visited < n + 1 := by
                have : (((c, pth) :: q1t) ++ q2) = (c, pth) :: (q1t ++ q2) :=
                  List.cons_append _ _ _
                rw [this] at hmu
                exact hmu
              omega
            -- case split on whether the front block is exhausted
            by_cases hq1t : q1t = []
            · -- transition to the next BFS layer
              subst hq1t
              have hlen1' : ∀ e ∈ q2 ++
                  (expandMoves g c pth MOVES [] (c :: visited)).1,
                  e.2.length = d + 1 := by
                intro e he
                rcases List.mem_append.mp he with h | h
                · exact hlen2 e h
                · exact hnew_len e (by rw [hE1] at h; exact h)
              have hcov' : ∀ (p : Pos) (ms : List Move),
                  validFrom g start ms = true → applyMoves start ms = p →
                  ms.length ≤ d + 1 →
                    p ∈ (expandMoves g c pth MOVES [] (c :: visited)).2 := by
                intro p ms hv ha hl
                by_cases hld : ms.length ≤ d
                · exact hcovd p ms hv ha hld
                · have hlen : ms.length = d + 1 := by omega
                  rcases list_eq_nil_or_concat ms with rfl | ⟨xs, m, rfl⟩
                  · simp at hlen
                  · rw [List.length_append] at hlen
                    have hxs : xs.length = d := by simp at hlen; omega
                    rw [validFrom_concat] at hv
                    obtain ⟨hvxs, helast⟩ := hv
                    have hu : applyMoves start xs ∈ visited :=
                      hcov _ xs hvxs rfl (le_of_eq hxs)
                    have huV : applyMoves start xs ∈
                        (expandMoves g c pth MOVES [] (c :: visited)).2 :=
                      (hVmem _).mpr (Or.inr (Or.inr hu))
                    have hunq : ∀ e ∈ ([] ++ q2) ++
                        (expandMoves g c pth MOVES [] (c :: visited)).1,
                        e.1 ≠ applyMoves start xs := by
                      intro e he heq
                      have hle := hmin' e he xs hvxs heq.symm
                      have hlee : e.2.length = d + 1 := by
                        apply hlen1'
                        rw [List.nil_append] at he
                        exact he
                      omega
                    have := hclos' _ huV (by
                      intro e he
                      apply hunq e
                      rw [List.nil_append]
                      exact he) m helast
                    rw [applyMoves_concat] at ha
                    rw [← ha]
                    exact this
              refine ih ((([] : List (Pos × List Move)) ++ q2) ++
                  (expandMoves g c pth MOVES [] (c :: visited)).1)
                (expandMoves g c pth MOVES [] (c :: visited)).2
                (d + 1)
                (q2 ++ (expandMoves g c pth MOVES [] (c :: visited)).1)
                [] ⟨?_, ?_, ?_, ?_, ?_, ?_, ?_, ?_, ?_, ?_, ?_⟩ ?_
              · rw [List.nil_append, List.append_nil]
              · intro _; rfl
              · exact hlen1'
              · intro e he; simp at he
              · intro e he; apply hok'; rw [List.nil_append] at he ⊢; exact he
              · intro e he; apply hmin'; rw [List.nil_append] at he ⊢; exact he
              · exact hcov'
              · intro e he; apply hqsub'; rw [List.nil_append] at he ⊢; exact he
              · intro u hu hnq m hel
                refine hclos' u hu ?_ m hel
                intro e he
                apply hnq e
                rw [List.nil_append] at he ⊢
                exact he
              · intro hgl
                obtain ⟨e, he, he1⟩ := hgoalq' hgl
                refine ⟨e, ?_, he1⟩
                rw [List.nil_append] at he ⊢
                exact he
              · exact hstartv'
              · rw [List.nil_append] at hmu' ⊢
                exact hmu'
            · -- stay within the current BFS layer
              refine ih ((q1t ++ q2) ++
                  (expandMoves g c pth MOVES [] (c :: visited)).1)
                (expandMoves g c pth MOVES [] (c :: visited)).2
                d q1t
                (q2 ++ (expandMoves g c pth MOVES [] (c :: visited)).1)
                ⟨?_, ?_, ?_, ?_, hok', hmin', hcovd, hqsub', hclos', hgoalq',
                  hstartv'⟩ hmu'
              · rw [List.append_assoc]
              · intro h; exact absurd h hq1t
              · intro e he
                exact hlen1 e (List.mem_cons_of_mem _ he)
              · intro e he
                rcases List.mem_append.mp he with h | h
                · exact hlen2 e h
                · exact hnew_len e (by rw [hE1] at h; exact h)

/-! ## Top-level properties of `bfs` -/

lemma bfs_self (g : Grid) (s : Pos) : bfs g s s = [] := by
  rw [bfs, show g.length + 2 = (g.length + 1) + 1 from rfl, bfsAux,
    if_pos rfl]
  rfl

lemma muBfs_init_lt (g : Grid) (start : Pos) :
    muBfs g [(start, [])] [] < g.length + 2 := by
  have h1 : (eligFinset g \ ([] : List Pos).toFinset).card ≤ g.length := by
    calc (eligFinset g \ ([] : List Pos).toFinset).card
        ≤ (eligFinset g).card := Finset.card_le_card (Finset.sdiff_subset)
      _ ≤ g.length := eligFinset_card_le g
  simp only [muBfs, List.length_cons, List.length_nil]
  omega

lemma bfs_isSome (g : Grid) (start goal : Pos) :
    (bfsAux g goal (g.length + 2) [(start, [])] []).isSome = true :=
  bfsAux_isSome_of_lt g goal _ _ _ (muBfs_init_lt g start)

lemma bfs_sound (g : Grid) (start goal : Pos) :
    bfs g start goal = [] ∨
      (validFrom g start (bfs g start goal) = true ∧
        applyMoves start (bfs g start goal) = goal) := by
  obtain ⟨r, hr⟩ := Option.isSome_iff_exists.mp (bfs_isSome g start goal)
  have hb : bfs g start goal = r := by rw [bfs, hr]; rfl
  rw [hb]
  apply bfsAux_sound g start goal (g.length + 2) [(start, [])] [] _ r hr
  intro e he
  rcases List.mem_cons.mp he with rfl | he
  · exact ⟨rfl, rfl⟩
  · simp at he

lemma bfs_correct (g : Grid) (start goal : Pos) (hreach : Reach g start goal) :
    validFrom g start (bfs g start goal) = true ∧
      applyMoves start (bfs g start goal) = goal ∧
      ∀ ms, validFrom g start ms = true → applyMoves start ms = goal →
        (bfs g start goal).length ≤ ms.length := by
  by_cases hsg : start = goal
  · subst hsg
    rw [bfs_self]
    exact ⟨rfl, rfl, fun ms _ _ => Nat.zero_le _⟩
  · obtain ⟨new, hE1, hE2, hnew⟩ :=
      expandMoves_spec g start [] MOVES [] [start]
    rw [List.nil_append] at hE1
    have hVmem : ∀ x,
        x ∈ (expandMoves g start [] MOVES [] [start]).2 ↔
          ((∃ e ∈ new, e.1 = x) ∨ x = start) := by
      intro x
      rw [hE2]
      simp only [List.mem_append, List.mem_reverse, List.mem_map,
        List.mem_cons, List.not_mem_nil, or_false]
    have hok0 : ∀ e ∈ (expandMoves g start [] MOVES [] [start]).1,
        validFrom g start e.2 = true ∧ applyMoves start e.2 = e.1 :=
      expandMoves_entries_ok g start start [] [start] rfl rfl
    have hlen0 : ∀ e ∈ new, e.2.length = 1 := by
      intro e he
      obtain ⟨⟨m, dd, _, _, he2⟩, _, _⟩ := hnew e he
      rw [he2]
      rfl
    have hmin0 : ∀ e ∈ new, ∀ ms, validFrom g start ms = true →
        applyMoves start ms = e.1 → e.2.length ≤ ms.length := by
      intro e he ms hv ha
      obtain ⟨⟨m, dd, hmd, he1, _⟩, _, _⟩ := hnew e he
      rw [hlen0 e he]
      rcases ms with _ | ⟨m0, t⟩
      · exfalso
        rw [applyMoves] at ha
        rw [mem_MOVES_delta hmd] at he1
        exact stepPos_moveDelta_ne start m (by rw [← he1, ha])
      · simp only [List.length_cons]
        omega
    have hinv : BfsInv g start goal
        (expandMoves g start [] MOVES [] [start]).1
        (expandMoves g start [] MOVES [] [start]).2
        1 (expandMoves g start [] MOVES [] [start]).1 [] := by
      refine ⟨(List.append_nil _).symm, fun _ => rfl, ?_, ?_, hok0, ?_, ?_,
        ?_, ?_, ?_, ?_⟩
      · intro e he
        rw [hE1] at he
        exact hlen0 e he
      · intro e he
        simp at he
      · intro e he
        rw [hE1] at he
        exact hmin0 e he
      · intro p ms hv ha hl
        rcases ms with _ | ⟨m0, t⟩
        · rw [applyMoves] at ha
          exact (hVmem p).mpr (Or.inr (by rw [← ha]))
        · have ht : t = [] := by
            rw [List.length_cons] at hl
            have := Nat.le_of_succ_le_succ hl
            exact List.length_eq_zero.mp (Nat.le_zero.mp this)
          subst ht
          rw [validFrom, Bool.and_eq_true] at hv
          have := expandMoves_coverage g start [] MOVES [] [start]
            m0 (moveDelta m0) (moveDelta_mem_MOVES m0) hv.1
          rw [applyMoves, applyMoves] at ha
          rw [← ha]
          exact this
      · intro e he
        rw [hE1] at he
        obtain ⟨_, _, _⟩ := hnew e he
        exact (hVmem e.1).mpr (Or.inl ⟨e, he, rfl⟩)
      · intro u hu hnq m hel
        by_cases hus : u = start
        · subst hus
          exact expandMoves_coverage g u [] MOVES [] [u]
            m (moveDelta m) (moveDelta_mem_MOVES m) hel
        · rcases (hVmem u).mp hu with ⟨e, he, he1⟩ | h
          · exact absurd he1 (hnq e (by rw [hE1]; exact he))
          · exact absurd h hus
      · intro hgl
        rcases (hVmem goal).mp hgl with ⟨e, he, he1⟩ | h
        · exact ⟨e, by rw [hE1]; exact he, he1⟩
        · exact absurd h.symm hsg
      · exact (hVmem start).mpr (Or.inr rfl)
    have hmu : muBfs g (expandMoves g start [] MOVES [] [start]).1
        (expandMoves g start [] MOVES [] [start]).2 < g.length + 1 := by
      have hcard := expandMoves_card g start [] MOVES [] [start]
      have h1 : (eligFinset g \ ([start] : List Pos).toFinset).card
          ≤ g.length := by
        calc (eligFinset g \ ([start] : List Pos).toFinset).card
            ≤ (eligFinset g).card := Finset.card_le_card (Finset.sdiff_subset)
          _ ≤ g.length := eligFinset_card_le g
      simp only [muBfs, List.length_nil] at hcard ⊢
      omega
    obtain ⟨r, hr, hv, ha, hm⟩ :=
      bfs_main g start goal hreach (g.length + 1)
        (expandMoves g start [] MOVES [] [start]).1
        (expandMoves g start [] MOVES [] [start]).2
        1 (expandMoves g start [] MOVES [] [start]).1 [] hinv hmu
    have hunf : bfsAux g goal (g.length + 2) [(start, [])] [] = some r := by
      rw [show g.length + 2 = (g.length + 1) + 1 from rfl, bfsAux,
        if_neg hsg]
      rw [← hr]
      congr 1
    have hb : bfs g start goal = r := by rw [bfs, hunf]; rfl
    rw [hb]
    exact ⟨hv, ha, hm⟩

/-! ## Target selection: Python `min` with a key -/

lemma pyMin_mem (key : Pos → Nat) :
    ∀ (xs : List Pos) (x : Pos), pyMin key x xs ∈ x :: xs := by
  intro xs
  induction xs with
  | nil => intro x; rw [pyMin]; exact List.mem_cons_self _ _
  | cons y ys ih =>
      intro x
      rw [pyMin]
      by_cases h : key y < key x
      · rw [if_pos h]
        exact List.mem_cons_of_mem _ (ih y)
      · rw [if_neg h]
        rcases List.mem_cons.mp (ih x) with h' | h'
        · rw [h']
          exact List.mem_cons_self _ _
        · exact List.mem_cons_of_mem _ (List.mem_cons_of_mem _ h')

lemma pyMin_le (key : Pos → Nat) :
    ∀ (xs : List Pos) (x : Pos) (q : Pos), q ∈ x :: xs →
      key (pyMin key x xs) ≤ key q := by
  intro xs
  induction xs with
  | nil =>
      intro x q hq
      rcases List.mem_cons.mp hq with rfl | hq
      · rw [pyMin]
      · simp at hq
  | cons y ys ih =>
      intro x q hq
      rw [pyMin]
      by_cases h : key y < key x
      · rw [if_pos h]
        rcases List.mem_cons.mp hq with rfl | hq
        · calc key (pyMin key y ys) ≤ key y := ih y y (List.mem_cons_self _ _)
            _ ≤ key q := le_of_lt h
        · exact ih y q hq
      · rw [if_neg h]
        push_neg at h
        rcases List.mem_cons.mp hq with rfl | hq
        · exact ih q q (List.mem_cons_self _ _)
        · rcases List.mem_cons.mp hq with rfl | hq
          · calc key (pyMin key x ys) ≤ key x := ih x x (List.mem_cons_self _ _)
              _ ≤ key q := h
          · exact ih x q (List.mem_cons_of_mem _ hq)

lemma pyMin_first (key : Pos → Nat) :
    ∀ (xs : List Pos) (x : Pos), ∃ l1 l2,
      x :: xs = l1 ++ pyMin key x xs :: l2 ∧
      ∀ q ∈ l1, key (pyMin key x xs) < key q := by
  intro xs
  induction xs with
  | nil =>
      intro x
      refine ⟨[], [], ?_, by intro q hq; simp at hq⟩
      rw [pyMin, List.nil_append]
  | cons y ys ih =>
      intro x
      rw [pyMin]
      by_cases h : key y < key x
      · rw [if_pos h]
        obtain ⟨l1, l2, heq, hlt⟩ := ih y
        refine ⟨x :: l1, l2, by rw [List.cons_append, ← heq], ?_⟩
        intro q hq
        rcases List.mem_cons.mp hq with rfl | hq
        · calc key (pyMin key y ys) ≤ key y := pyMin_le key ys y y (List.mem_cons_self _ _)
            _ < key q := h
        · exact hlt q hq
      · rw [if_neg h]
        push_neg at h
        obtain ⟨l1, l2, heq, hlt⟩ := ih x
        cases l1 with
        | nil =>
            simp only [List.nil_append] at heq
            refine ⟨[], y :: ys, ?_, by intro q hq; simp at hq⟩
            rw [List.nil_append]
            have hx : pyMin key x ys = x := by
              have := heq
              injection this with h1 _
              exact h1.symm
            rw [hx]
        | cons z l1t =>
            have hz : z = x := by
              rw [List.cons_append] at heq
              injection heq with h1 _
              exact h1.symm
            subst hz
            obtain ⟨h1, h2⟩ : l1t ++ pyMin key z ys :: l2 = ys ∧ True := by
              rw [List.cons_append] at heq
              injection heq with _ h2
              exact ⟨h2.symm, trivial⟩
            refine ⟨z :: y :: l1t, l2, ?_, ?_⟩
            · rw [List.cons_append, List.cons_append, h1]
            · intro q hq
              have hminx : key (pyMin key z ys) < key z :=
                hlt z (List.mem_cons_self _ _)
              rcases List.mem_cons.mp hq with rfl | hq
              · exact hminx
              · rcases List.mem_cons.mp hq with rfl | hq
                · exact lt_of_lt_of_le hminx h
                · exact hlt q (List.mem_cons_of_mem _ hq)

/-! ## Manhattan distance -/

lemma manhattan_self (p : Pos) : manhattan_distance p p = 0 := by
  simp [manhattan_distance]

lemma manhattan_eq_zero {p q : Pos} :
    manhattan_distance p q = 0 ↔ p = q := by
  rw [manhattan_distance]
  constructor
  · intro h
    have h1 : p.1 = q.1 := by omega
    have h2 : p.2 = q.2 := by omega
    rw [Prod.ext_iff]
    exact ⟨h1, h2⟩
  · rintro rfl
    omega

/-! ## Removal from the fallback list -/

lemma removeFirst_sublist : ∀ (l : List Pos) (x : Pos),
    List.Sublist (removeFirst l x) l := by
  intro l
  induction l with
  | nil => intro x; rw [removeFirst]
  | cons y ys ih =>
      intro x
      rw [removeFirst]
      by_cases h : y = x
      · rw [if_pos h]
        exact List.Sublist.cons y (List.Sublist.refl ys)
      · rw [if_neg h]
        exact List.Sublist.cons₂ y (ih x)

lemma removeFirst_subset (l : List Pos) (x : Pos) :
    ∀ q ∈ removeFirst l x, q ∈ l :=
  fun _ hq => (removeFirst_sublist l x).subset hq

lemma removeFirst_length_le (l : List Pos) (x : Pos) :
    (removeFirst l x).length ≤ l.length :=
  (removeFirst_sublist l x).length_le

lemma removeFirst_nodup {l : List Pos} (h : l.Nodup) (x : Pos) :
    (removeFirst l x).Nodup :=
  h.sublist (removeFirst_sublist l x)

lemma not_mem_removeFirst_of_nodup :
    ∀ {l : List Pos}, l.Nodup → ∀ (x : Pos), x ∉ removeFirst l x := by
  intro l
  induction l with
  | nil => intro _ x; rw [removeFirst]; exact List.not_mem_nil x
  | cons y ys ih =>
      intro hnd x
      rw [removeFirst]
      obtain ⟨hy, hys⟩ := List.nodup_cons.mp hnd
      by_cases h : y = x
      · rw [if_pos h]
        rw [h] at hy
        exact hy
      · rw [if_neg h]
        intro hc
        rcases List.mem_cons.mp hc with rfl | hc
        · exact h rfl
        · exact ih hys x hc

/-! ## Characterisation of the decision cycle -/

/-- `path[0] if path else rnd`: the first move of a nonempty path,
otherwise the random draw (source lines 102–106 and 117–124). -/
def headOrElse : List Move → Move → Move
  | m :: _, _ => m
  | [], d => d

lemma on_message_core_coins (cur : Pos) (c1 c2 c3 walls fake : List Pos)
    (rnd : Move) (c : Pos) (cs : List Pos) (h : c1 ++ c2 ++ c3 = c :: cs) :
    on_message_core cur c1 c2 c3 walls fake rnd =
      some (headOrElse
        (bfs (buildGrid walls) cur (pyMin (manhattan_distance cur) c cs))
        rnd, fake) := by
  simp only [on_message_core.eq_def, h]
  cases hp : bfs (buildGrid walls) cur (pyMin (manhattan_distance cur) c cs) with
  | nil => simp only [hp, headOrElse]
  | cons m tl => simp only [hp, headOrElse]

lemma on_message_core_fake (cur : Pos) (c1 c2 c3 walls fake : List Pos)
    (rnd : Move) (f : Pos) (fs : List Pos)
    (hc : c1 ++ c2 ++ c3 = []) (hf : fake = f :: fs) :
    on_message_core cur c1 c2 c3 walls fake rnd =
      some (headOrElse
        (bfs (buildGrid walls) cur (pyMin (manhattan_distance cur) f fs))
        rnd,
        if manhattan_distance cur (pyMin (manhattan_distance cur) f fs) ≤ 2
        then removeFirst fake (pyMin (manhattan_distance cur) f fs)
        else fake) := by
  have hmem : pyMin (manhattan_distance cur) f fs ∈ f :: fs := pyMin_mem _ fs f
  subst hf
  simp only [on_message_core.eq_def, hc]
  by_cases hd2 : manhattan_distance cur (pyMin (manhattan_distance cur) f fs) ≤ 2
  · simp only [if_pos hd2, pyRemove, if_pos hmem]
    cases hp : bfs (buildGrid walls) cur (pyMin (manhattan_distance cur) f fs) with
    | nil => simp only [hp, headOrElse]
    | cons m tl =>
        have hne : cur ≠ pyMin (manhattan_distance cur) f fs := by
          intro hcur
          have hself : bfs (buildGrid walls) cur
              (pyMin (manhattan_distance cur) f fs) = [] := by
            rw [show pyMin (manhattan_distance cur) f fs = cur from hcur.symm]
            exact bfs_self _ _
          rw [hself] at hp
          cases hp
        simp only [hp, headOrElse, if_neg hne]
  · simp only [if_neg hd2]
    cases hp : bfs (buildGrid walls) cur (pyMin (manhattan_distance cur) f fs) with
    | nil => simp only [hp, headOrElse]
    | cons m tl =>
        have hne : cur ≠ pyMin (manhattan_distance cur) f fs := by
          intro hcur
          apply hd2
          rw [← hcur, manhattan_self]
          omega
        simp only [hp, headOrElse, if_neg hne]

lemma on_message_core_none (cur : Pos) (c1 c2 c3 walls fake : List Pos)
    (rnd : Move) (hc : c1 ++ c2 ++ c3 = []) (hf : fake = []) :
    on_message_core cur c1 c2 c3 walls fake rnd = some (rnd, fake) := by
  subst hf
  simp only [on_message_core.eq_def, hc]

/-! ## Totality of the decision cycle and iterated cycles -/

lemma on_message_core_total (cur : Pos) (c1 c2 c3 walls fake : List Pos)
    (rnd : Move) :
    ∃ mv fake1, on_message_core cur c1 c2 c3 walls fake rnd = some (mv, fake1) ∧
      (fake1 = fake ∨ ∃ t ∈ fake, fake1 = removeFirst fake t) := by
  cases hcs : c1 ++ c2 ++ c3 with
  | cons c cs =>
      exact ⟨_, fake, on_message_core_coins cur c1 c2 c3 walls fake rnd c cs hcs,
        Or.inl rfl⟩
  | nil =>
      cases fake with
      | nil =>
          exact ⟨rnd, [], on_message_core_none cur c1 c2 c3 walls [] rnd hcs rfl,
            Or.inl rfl⟩
      | cons f fs =>
          refine ⟨_, _,
            on_message_core_fake cur c1 c2 c3 walls (f :: fs) rnd f fs hcs rfl, ?_⟩
          by_cases hd2 : manhattan_distance cur (pyMin (manhattan_distance cur) f fs) ≤ 2
          · rw [if_pos hd2]
            exact Or.inr ⟨pyMin (manhattan_distance cur) f fs,
              pyMin_mem _ fs f, rfl⟩
          · rw [if_neg hd2]
            exact Or.inl rfl

lemma runCycles_spec :
    ∀ (inputs : List CycleInput) (fake : List Pos), ∃ final,
      runCycles fake inputs = some final ∧
      (∀ p ∈ final, p ∈ fake) ∧
      final.length ≤ fake.length ∧
      (fake.Nodup → final.Nodup) ∧
      (fake = [] → final = fake) := by
  intro inputs
  induction inputs with
  | nil =>
      intro fake
      exact ⟨fake, rfl, fun p hp => hp, le_refl _, fun h => h, fun _ => rfl⟩
  | cons i is ih =>
      intro fake
      obtain ⟨mv, fake1, hstep, hcases⟩ :=
        on_message_core_total i.cur i.coin1 i.coin2 i.coin3 i.walls fake i.rnd
      obtain ⟨final, hrun, hsub, hlen, hnd, hemp⟩ := ih fake1
      have hsub1 : ∀ p ∈ fake1, p ∈ fake := by
        rcases hcases with rfl | ⟨t, _, rfl⟩
        · exact fun p hp => hp
        · exact removeFirst_subset fake t
      have hlen1 : fake1.length ≤ fake.length := by
        rcases hcases with rfl | ⟨t, _, rfl⟩
        · exact le_refl _
        · exact removeFirst_length_le fake t
      have hnd1 : fake.Nodup → fake1.Nodup := by
        rcases hcases with rfl | ⟨t, _, rfl⟩
        · exact fun h => h
        · exact fun h => removeFirst_nodup h t
      have hemp1 : fake = [] → fake1 = fake := by
        rcases hcases with rfl | ⟨t, ht, rfl⟩
        · exact fun _ => rfl
        · intro h
          rw [h] at ht
          exact absurd ht (List.not_mem_nil t)
      refine ⟨final, ?_, fun p hp => hsub1 p (hsub p hp),
        le_trans hlen hlen1, fun h => hnd (hnd1 h), ?_⟩
      · rw [runCycles, hstep]
        exact hrun
      · intro h
        have h1 : fake1 = [] := by rw [hemp1 h, h]
        rw [hemp h1, h1, h]

lemma runCycles_append :
    ∀ (is1 is2 : List CycleInput) (fake : List Pos),
      runCycles fake (is1 ++ is2) =
        (runCycles fake is1).bind (fun mid => runCycles mid is2) := by
  intro is1
  induction is1 with
  | nil => intro is2 fake; rw [List.nil_append, runCycles, Option.some_bind]
  | cons i is ih =>
      intro is2 fake
      rw [List.cons_append, runCycles, runCycles]
      obtain ⟨mv, fake1, hstep, _⟩ :=
        on_message_core_total i.cur i.coin1 i.coin2 i.coin3 i.walls fake i.rnd
      rw [hstep]
      exact ih is2 fake1

/-! ## The claims -/

/-- C1: for every 10×10 obstacle map and every in-bounds start and goal
cell with the goal reachable from the start, `bfs grid start goal`
returns a sequence of moves that, applied from the start, stays on
in-bounds non-wall cells and ends at the goal, and whose length equals
the true shortest-path distance from start to goal over the
4-neighbourhood (it is a legal path to the goal and no legal path to
the goal is shorter). -/
theorem C1_bfs_shortest_path (walls : List Pos) (start goal : Pos)
    (hstart : onBoard start = true) (hgoal : onBoard goal = true)
    (hreach : Reach (buildGrid walls) start goal) :
    validFrom (buildGrid walls) start (bfs (buildGrid walls) start goal) = true ∧
    applyMoves start (bfs (buildGrid walls) start goal) = goal ∧
    (∀ p ∈ trail start (bfs (buildGrid walls) start goal),
      onBoard p = true ∧ p ∉ walls) ∧
    ∀ ms, validFrom (buildGrid walls) start ms = true →
      applyMoves start ms = goal →
      (bfs (buildGrid walls) start goal).length ≤ ms.length := by
  have _unused := And.intro hstart hgoal
  obtain ⟨hv, ha, hm⟩ := bfs_correct (buildGrid walls) start goal hreach
  refine ⟨hv, ha, ?_, hm⟩
  intro p hp
  exact (eligible_buildGrid walls p).mp
    (trail_eligible (bfs (buildGrid walls) start goal) start hv p hp)

theorem C1_witness :
    Reach (buildGrid []) ((0 : Int), (0 : Int)) ((1 : Int), (0 : Int)) ∧
    (validFrom (buildGrid []) (0, 0) (bfs (buildGrid []) (0, 0) (1, 0)) = true ∧
      applyMoves (0, 0) (bfs (buildGrid []) (0, 0) (1, 0)) = (1, 0) ∧
      (∀ p ∈ trail (0, 0) (bfs (buildGrid []) (0, 0) (1, 0)),
        onBoard p = true ∧ p ∉ ([] : List Pos)) ∧
      ∀ ms, validFrom (buildGrid []) (0, 0) ms = true →
        applyMoves (0, 0) ms = (1, 0) →
        (bfs (buildGrid []) (0, 0) (1, 0)).length ≤ ms.length) :=
  ⟨⟨[Move.DOWN], by decide, by decide⟩,
    C1_bfs_shortest_path [] (0, 0) (1, 0) (by decide) (by decide)
      ⟨[Move.DOWN], by decide, by decide⟩⟩

/-- C2: whenever the real-coin list (coin1 ++ coin2 ++ coin3) is
non-empty, the decision cycle's target is a real coin and never a
fallback coordinate: it is the coin minimising Manhattan distance to the
current position, ties broken in favour of the candidate enumerated
first in the input list's order, and the cycle's outcome is determined
by that real-coin target (the fallback list is not consulted and is
returned unchanged). -/
theorem C2_target_selection (cur : Pos) (c1 c2 c3 walls fake : List Pos)
    (rnd : Move) (c : Pos) (cs : List Pos) (h : c1 ++ c2 ++ c3 = c :: cs) :
    pyMin (manhattan_distance cur) c cs ∈ c1 ++ c2 ++ c3 ∧
    (∀ q ∈ c1 ++ c2 ++ c3,
      manhattan_distance cur (pyMin (manhattan_distance cur) c cs) ≤
        manhattan_distance cur q) ∧
    (∃ l1 l2, c1 ++ c2 ++ c3 = l1 ++ pyMin (manhattan_distance cur) c cs :: l2 ∧
      ∀ q ∈ l1, manhattan_distance cur (pyMin (manhattan_distance cur) c cs) <
        manhattan_distance cur q) ∧
    on_message_core cur c1 c2 c3 walls fake rnd =
      some (headOrElse
        (bfs (buildGrid walls) cur (pyMin (manhattan_distance cur) c cs))
        rnd, fake) := by
  refine ⟨?_, ?_, ?_, on_message_core_coins cur c1 c2 c3 walls fake rnd c cs h⟩
  · rw [h]
    exact pyMin_mem _ cs c
  · intro q hq
    rw [h] at hq
    exact pyMin_le _ cs c q hq
  · rw [h]
    exact pyMin_first _ cs c

theorem C2_witness :
    pyMin (manhattan_distance ((0 : Int), (0 : Int)))
        ((1 : Int), (1 : Int)) [] ∈ [((1 : Int), (1 : Int))] ++ [] ++ [] ∧
    (∀ q ∈ [((1 : Int), (1 : Int))] ++ [] ++ [],
      manhattan_distance (0, 0) (pyMin (manhattan_distance (0, 0)) (1, 1) []) ≤
        manhattan_distance (0, 0) q) ∧
    (∃ l1 l2, [((1 : Int), (1 : Int))] ++ [] ++ [] =
        l1 ++ pyMin (manhattan_distance (0, 0)) (1, 1) [] :: l2 ∧
      ∀ q ∈ l1, manhattan_distance (0, 0)
          (pyMin (manhattan_distance (0, 0)) (1, 1) []) <
        manhattan_distance (0, 0) q) ∧
    on_message_core (0, 0) [(1, 1)] [] [] [] fake_coin_positions Move.UP =
      some (headOrElse
        (bfs (buildGrid []) (0, 0) (pyMin (manhattan_distance (0, 0)) (1, 1) []))
        Move.UP, fake_coin_positions) :=
  C2_target_selection (0, 0) [(1, 1)] [] [] [] fake_coin_positions Move.UP
    (1, 1) [] (by decide)

/-- C3: in a decision cycle with no real coins and a non-empty fallback
list with pairwise-distinct entries, if the current position is within
Manhattan distance ≤ 2 of the selected nearest fallback coin then that
coin is removed from the list during the cycle; in particular, when the
current position equals a fallback coin exactly, that coin is the
selected target and is removed by the end of the cycle. -/
theorem C3_fallback_pruning (cur : Pos) (c1 c2 c3 walls fake : List Pos)
    (rnd : Move) (f : Pos) (fs : List Pos)
    (hc : c1 ++ c2 ++ c3 = []) (hf : fake = f :: fs) (hnd : fake.Nodup) :
    (manhattan_distance cur (pyMin (manhattan_distance cur) f fs) ≤ 2 →
      ∃ mv, on_message_core cur c1 c2 c3 walls fake rnd =
          some (mv, removeFirst fake (pyMin (manhattan_distance cur) f fs)) ∧
        pyMin (manhattan_distance cur) f fs ∉
          removeFirst fake (pyMin (manhattan_distance cur) f fs)) ∧
    (cur ∈ fake →
      ∃ mv, on_message_core cur c1 c2 c3 walls fake rnd =
          some (mv, removeFirst fake cur) ∧ cur ∉ removeFirst fake cur) := by
  have hmain : manhattan_distance cur (pyMin (manhattan_distance cur) f fs) ≤ 2 →
      ∃ mv, on_message_core cur c1 c2 c3 walls fake rnd =
          some (mv, removeFirst fake (pyMin (manhattan_distance cur) f fs)) ∧
        pyMin (manhattan_distance cur) f fs ∉
          removeFirst fake (pyMin (manhattan_distance cur) f fs) := by
    intro hd2
    refine ⟨headOrElse
      (bfs (buildGrid walls) cur (pyMin (manhattan_distance cur) f fs)) rnd,
      ?_, not_mem_removeFirst_of_nodup hnd _⟩
    rw [on_message_core_fake cur c1 c2 c3 walls fake rnd f fs hc hf, if_pos hd2]
  refine ⟨hmain, ?_⟩
  intro hcur
  have hpm : pyMin (manhattan_distance cur) f fs = cur := by
    have h1 : manhattan_distance cur (pyMin (manhattan_distance cur) f fs) ≤
        manhattan_distance cur cur := by
      apply pyMin_le
      rw [← hf]
      exact hcur
    rw [manhattan_self] at h1
    have h0 : manhattan_distance cur (pyMin (manhattan_distance cur) f fs) = 0 :=
      Nat.le_zero.mp h1
    exact (manhattan_eq_zero.mp h0).symm
  obtain ⟨mv, hcyc, hnm⟩ := hmain (by rw [hpm, manhattan_self]; omega)
  exact ⟨mv, by rw [hcyc, hpm], by rw [← hpm]; exact hnm⟩

theorem C3_witness :
    (manhattan_distance ((0 : Int), (0 : Int))
        (pyMin (manhattan_distance ((0 : Int), (0 : Int))) (0, 0)
          [(0, 9), (9, 0), (9, 9)]) ≤ 2 →
      ∃ mv, on_message_core (0, 0) [] [] [] [] fake_coin_positions Move.UP =
          some (mv, removeFirst fake_coin_positions
            (pyMin (manhattan_distance (0, 0)) (0, 0) [(0, 9), (9, 0), (9, 9)])) ∧
        pyMin (manhattan_distance (0, 0)) (0, 0) [(0, 9), (9, 0), (9, 9)] ∉
          removeFirst fake_coin_positions
            (pyMin (manhattan_distance (0, 0)) (0, 0) [(0, 9), (9, 0), (9, 9)])) ∧
    (((0 : Int), (0 : Int)) ∈ fake_coin_positions →
      ∃ mv, on_message_core (0, 0) [] [] [] [] fake_coin_positions Move.UP =
          some (mv, removeFirst fake_coin_positions (0, 0)) ∧
        ((0 : Int), (0 : Int)) ∉ removeFirst fake_coin_positions (0, 0)) :=
  C3_fallback_pruning (0, 0) [] [] [] [] fake_coin_positions Move.UP
    (0, 0) [(0, 9), (9, 0), (9, 9)] (by decide) (by decide) (by decide)

/-- C4: across any sequence of decision cycles starting from the seeded
fallback list {(0,0), (0,9), (9,0), (9,9)}, the Fallback Coin Set's size
is non-increasing, no coordinate is ever added after startup (every
later state is contained in every earlier state), a removed coordinate
never reappears, and once the set is empty it remains empty. -/
theorem C4_fallback_monotone (is1 is2 : List CycleInput) :
    ∃ mid final, runCycles fake_coin_positions is1 = some mid ∧
      runCycles fake_coin_positions (is1 ++ is2) = some final ∧
      (∀ p ∈ final, p ∈ mid) ∧
      final.length ≤ mid.length ∧
      (∀ p, p ∉ mid → p ∉ final) ∧
      (mid = [] → final = []) := by
  obtain ⟨mid, hrun1, hsub1, hlen1, hnd1, hemp1⟩ :=
    runCycles_spec is1 fake_coin_positions
  obtain ⟨final, hrun2, hsub2, hlen2, hnd2, hemp2⟩ := runCycles_spec is2 mid
  refine ⟨mid, final, hrun1, ?_, hsub2, hlen2,
    fun p hp hpf => hp (hsub2 p hpf), fun h => (hemp2 h).trans h⟩
  rw [runCycles_append, hrun1, Option.some_bind]
  exact hrun2

/-- C5: every decision cycle runs to completion without raising an
exception and emits exactly one move, always drawn from
{UP, DOWN, LEFT, RIGHT}, for every input snapshot — any current
position, any coin lists, any wall list (duplicates across categories
included), any fallback list and any random draw; in particular the
second fallback-coin removal site inside the non-empty-path branch never
raises. -/
theorem C5_no_crash (cur : Pos) (c1 c2 c3 walls fake : List Pos) (rnd : Move) :
    ∃ mv fake1, on_message_core cur c1 c2 c3 walls fake rnd = some (mv, fake1) ∧
      (mv = Move.UP ∨ mv = Move.DOWN ∨ mv = Move.LEFT ∨ mv = Move.RIGHT) := by
  obtain ⟨mv, fake1, hstep, _⟩ :=
    on_message_core_total cur c1 c2 c3 walls fake rnd
  refine ⟨mv, fake1, hstep, ?_⟩
  cases mv with
  | UP => exact Or.inl rfl
  | DOWN => exact Or.inr (Or.inl rfl)
  | LEFT => exact Or.inr (Or.inr (Or.inl rfl))
  | RIGHT => exact Or.inr (Or.inr (Or.inr rfl))

/-- C6: for every obstacle map and in-bounds start and goal cells, `bfs`
returns an empty move sequence if and only if the goal is unreachable
from the start or start equals goal, and it never signals an error (the
embedded loop always terminates with a value at the fuel `bfs`
supplies). -/
theorem C6_bfs_empty_iff (walls : List Pos) (start goal : Pos)
    (hstart : onBoard start = true) (hgoal : onBoard goal = true) :
    (bfs (buildGrid walls) start goal = [] ↔
      (start = goal ∨ ¬ Reach (buildGrid walls) start goal)) ∧
    (bfsAux (buildGrid walls) goal ((buildGrid walls).length + 2)
      [(start, [])] []).isSome = true := by
  have _unused := And.intro hstart hgoal
  refine ⟨⟨?_, ?_⟩, bfs_isSome (buildGrid walls) start goal⟩
  · intro hemp
    by_cases hr : Reach (buildGrid walls) start goal
    · obtain ⟨_, ha, _⟩ := bfs_correct (buildGrid walls) start goal hr
      rw [hemp] at ha
      exact Or.inl ha
    · exact Or.inr hr
  · rintro (rfl | hnr)
    · exact bfs_self _ _
    · rcases bfs_sound (buildGrid walls) start goal with h | ⟨hv, ha⟩
      · exact h
      · exact absurd ⟨bfs (buildGrid walls) start goal, hv, ha⟩ hnr

theorem C6_witness :
    (bfs (buildGrid [((0 : Int), (1 : Int)), ((1 : Int), (0 : Int))])
        ((0 : Int), (0 : Int)) ((5 : Int), (5 : Int)) = [] ↔
      (((0 : Int), (0 : Int)) = ((5 : Int), (5 : Int)) ∨
        ¬ Reach (buildGrid [((0 : Int), (1 : Int)), ((1 : Int), (0 : Int))])
          (0, 0) (5, 5))) ∧
    (bfsAux (buildGrid [((0 : Int), (1 : Int)), ((1 : Int), (0 : Int))])
      (5, 5) ((buildGrid [((0 : Int), (1 : Int)), ((1 : Int), (0 : Int))]).length + 2)
      [((0, 0), [])] []).isSome = true :=
  C6_bfs_empty_iff [(0, 1), (1, 0)] (0, 0) (5, 5) (by decide) (by decide)

/-- C7: on a 10×10 board with no walls, current position (5,5) and
exactly one real coin at (5,7), the path finder returns exactly the path
[RIGHT, RIGHT] and the engine emits the move RIGHT for that cycle. -/
theorem C7_scenario_A :
    bfs (buildGrid []) ((5 : Int), (5 : Int)) (5, 7) =
      [Move.RIGHT, Move.RIGHT] ∧
    on_message_core (5, 5) [(5, 7)] [] [] [] fake_coin_positions Move.UP =
      some (Move.RIGHT, fake_coin_positions) := by
  constructor
  · decide
  · decide

/-- C8: `bfs` is deterministic — the neighbour expansion order is the
fixed list UP, DOWN, LEFT, RIGHT (the insertion order of the MOVES
dict), and for a fixed obstacle map and fixed (start, goal) pair any two
invocations return the identical move sequence, so when several
equal-length shortest paths exist the same one is returned every
time. -/
theorem C8_bfs_deterministic :
    MOVES = [(Move.UP, ((-1 : Int), (0 : Int))), (Move.DOWN, (1, 0)),
      (Move.LEFT, (0, -1)), (Move.RIGHT, (0, 1))] ∧
    ∀ (g : Grid) (s t : Pos) (r1 r2 : List Move),
      r1 = bfs g s t → r2 = bfs g s t → r1 = r2 :=
  ⟨rfl, fun _ _ _ _ _ h1 h2 => h1.trans h2.symm⟩

theorem C8_witness :
    bfs (buildGrid []) ((5 : Int), (5 : Int)) ((4 : Int), (6 : Int)) =
      bfs (buildGrid []) (5, 5) (4, 6) :=
  C8_bfs_deterministic.2 (buildGrid []) (5, 5) (4, 6) _ _ rfl rfl

/-- C9 counterexample: an out-of-range wall coordinate IS placed in the
obstacle map by construction — `grid[wall] = 'W'` adds the key to the
dict — refuting the claim that out-of-range wall coordinates cannot be
placed in the map. -/
theorem C9_counterexample :
    gridGet (buildGrid [((15 : Int), (3 : Int))]) (15, 3) = some 'W' := by
  decide

/-- C9 (amended): for every wall list containing out-of-range
coordinates, obstacle-map construction succeeds without error and the
out-of-range walls are placed in the map as 'W' entries; since such
cells are impassable anyway and lie off the board, the
passable/impassable answer for every cell on the 10×10 board equals the
answer of the map built from only the in-range wall coordinates, and
`bfs` returns identical paths on the two maps, so out-of-range walls
affect no path found by the path finder. -/
theorem C9_oor_walls_harmless (walls : List Pos) (s t : Pos) :
    (∀ p : Pos, onBoard p = true →
      eligible (buildGrid walls) p =
        eligible (buildGrid (walls.filter (fun w => onBoard w))) p) ∧
    bfs (buildGrid walls) s t =
      bfs (buildGrid (walls.filter (fun w => onBoard w))) s t := by
  have hboolext : ∀ (a b : Bool), (a = true ↔ b = true) → a = b := by decide
  have helig : ∀ p : Pos,
      eligible (buildGrid walls) p =
        eligible (buildGrid (walls.filter (fun w => onBoard w))) p := by
    intro p
    apply hboolext
    rw [eligible_buildGrid, eligible_buildGrid]
    constructor
    · rintro ⟨hob, hnw⟩
      refine ⟨hob, fun hc => hnw ?_⟩
      exact (List.mem_filter.mp hc).1
    · rintro ⟨hob, hnw⟩
      refine ⟨hob, fun hc => hnw ?_⟩
      exact List.mem_filter.mpr ⟨hc, hob⟩
  refine ⟨fun p _ => helig p, ?_⟩
  have hfuel := (buildGrid walls).length +
    (buildGrid (walls.filter (fun w => onBoard w))).length + 4
  rw [bfs, bfs]
  have h1 : bfsAux (buildGrid walls) t ((buildGrid walls).length + 2)
      [(s, [])] [] =
      bfsAux (buildGrid walls) t ((buildGrid walls).length +
        (buildGrid (walls.filter (fun w => onBoard w))).length + 4)
        [(s, [])] [] := by
    apply bfsAux_fuel_eq
    · exact muBfs_init_lt _ s
    · have := muBfs_init_lt (buildGrid walls) s
      omega
  have h2 : bfsAux (buildGrid walls) t ((buildGrid walls).length +
      (buildGrid (walls.filter (fun w => onBoard w))).length + 4)
      [(s, [])] [] =
      bfsAux (buildGrid (walls.filter (fun w => onBoard w))) t
        ((buildGrid walls).length +
          (buildGrid (walls.filter (fun w => onBoard w))).length + 4)
        [(s, [])] [] :=
    bfsAux_congr t helig _ _ _
  have h3 : bfsAux (buildGrid (walls.filter (fun w => onBoard w))) t
      ((buildGrid walls).length +
        (buildGrid (walls.filter (fun w => onBoard w))).length + 4)
      [(s, [])] [] =
      bfsAux (buildGrid (walls.filter (fun w => onBoard w))) t
        ((buildGrid (walls.filter (fun w => onBoard w))).length + 2)
        [(s, [])] [] := by
    apply bfsAux_fuel_eq
    · have := muBfs_init_lt (buildGrid (walls.filter (fun w => onBoard w))) s
      omega
    · exact muBfs_init_lt _ s
  rw [h1, h2, h3]

/-- C10: target selection does not mutate state — whenever the real-coin
list is non-empty, the decision cycle returns the fallback list
completely unchanged; and conversely, whenever a cycle changes the
fallback list, the real-coin list was empty and the change is the
pruning step's removal, which fired because the selected nearest
fallback coin was within Manhattan distance ≤ 2 of the current
position. -/
theorem C10_frame (cur : Pos) (c1 c2 c3 walls fake : List Pos) (rnd : Move) :
    ((∃ c cs, c1 ++ c2 ++ c3 = c :: cs) →
      ∃ mv, on_message_core cur c1 c2 c3 walls fake rnd = some (mv, fake)) ∧
    (∀ mv fake1,
      on_message_core cur c1 c2 c3 walls fake rnd = some (mv, fake1) →
      fake1 ≠ fake →
      c1 ++ c2 ++ c3 = [] ∧ ∃ f fs, fake = f :: fs ∧
        fake1 = removeFirst fake (pyMin (manhattan_distance cur) f fs) ∧
        manhattan_distance cur (pyMin (manhattan_distance cur) f fs) ≤ 2) := by
  constructor
  · rintro ⟨c, cs, h⟩
    exact ⟨_, on_message_core_coins cur c1 c2 c3 walls fake rnd c cs h⟩
  · intro mv fake1 hstep hne
    cases hcs : c1 ++ c2 ++ c3 with
    | cons c cs =>
        rw [on_message_core_coins cur c1 c2 c3 walls fake rnd c cs hcs] at hstep
        injection hstep with hstep
        have : fake1 = fake := congrArg Prod.snd hstep.symm
        exact absurd this hne
    | nil =>
        refine ⟨rfl, ?_⟩
        cases hf : fake with
        | nil =>
            rw [hf] at hstep hne
            rw [on_message_core_none cur c1 c2 c3 walls [] rnd hcs rfl] at hstep
            injection hstep with hstep
            have : fake1 = [] := congrArg Prod.snd hstep.symm
            exact absurd this hne
        | cons f fs =>
            rw [hf] at hstep hne
            rw [on_message_core_fake cur c1 c2 c3 walls (f :: fs) rnd f fs
              hcs rfl] at hstep
            by_cases hd2 : manhattan_distance cur
                (pyMin (manhattan_distance cur) f fs) ≤ 2
            · rw [if_pos hd2] at hstep
              injection hstep with hstep
              refine ⟨f, fs, rfl, ?_, hd2⟩
              exact congrArg Prod.snd hstep.symm
            · rw [if_neg hd2] at hstep
              injection hstep with hstep
              have : fake1 = f :: fs := congrArg Prod.snd hstep.symm
              exact absurd this hne

theorem C10_witness :
    (∃ mv, on_message_core ((0 : Int), (0 : Int)) [(1, 1)] [] [] []
      fake_coin_positions Move.UP = some (mv, fake_coin_positions)) ∧
    ([] ++ [] ++ [] = ([] : List Pos) ∧
      ∃ f fs, fake_coin_positions = f :: fs ∧
        [((0 : Int), (9 : Int)), (9, 0), (9, 9)] =
          removeFirst fake_coin_positions
            (pyMin (manhattan_distance ((0 : Int), (0 : Int))) f fs) ∧
        manhattan_distance ((0 : Int), (0 : Int))
          (pyMin (manhattan_distance ((0 : Int), (0 : Int))) f fs) ≤ 2) :=
  ⟨(C10_frame (0, 0) [(1, 1)] [] [] [] fake_coin_positions Move.UP).1
      ⟨(1, 1), [], by decide⟩,
    (C10_frame (0, 0) [] [] [] [] fake_coin_positions Move.UP).2
      Move.UP [(0, 9), (9, 0), (9, 9)] (by decide) (by decide)⟩
